import Mathlib

/-!
Verification of the `lhe` leveled homomorphic encryption library
(`src/lhe/lhe.py` and `src/lhe/level_d.py`).

Modelling conventions (shallow embedding):

The pairing backend (`mclbn256`) exposes three cyclic groups `G1`, `G2`,
`GT` of prime order `q` with fixed generators `g1`, `g2` and
`z1 = e(g1, g2)`, plus the scalar field `Fr = ZMod q`.  Every group
element the library ever constructs is obtained from the generator of
its group by group operations, scalar multiplications and pairings, so
we represent each element by its discrete logarithm with respect to the
generator of its group: an element `g1 * a : G1` is represented by
`a : ZMod q`, an element `z1 ** a : GT` by `a : ZMod q`.  Under this
isomorphism:
  point addition in G1/G2 and multiplication in GT become `+` in `ZMod q`;
  scalar multiplication (`* Fr` on points) and exponentiation
  (`** Fr` in GT) become `*` in `ZMod q`;
  the pairing `e(g1 * a, g2 * b) = z1 ** (a * b)` becomes `*`;
  equality of group elements is equality in `ZMod q`.
Randomness (`Fr()` fresh scalars) is made explicit: every random scalar
drawn by the Python code is a universally quantified argument of the
Lean function.  Python `Optional` results become `Option`; a raised
exception becomes `Except.error`; a Python function falling off the end
of its body (implicitly returning `None`) becomes `none`.
-/

/-- Order of the pairing groups `G1`, `G2`, `GT` and of the scalar field
`Fr` of the mclbn256 backend (the BN254 curve order). Only its size
matters for the development: it is nonzero and far larger than `2^21`. -/
def q : ℕ := 16798108731015832284940804142231733909759579603404752749028378864165570215949

instance : NeZero q := ⟨by decide⟩

/-- Search ceiling of the discrete-logarithm routine: `pow(2, 20)` in
`dlog` (`lhe.py` lines 477-478, `level_d.py` line 256). -/
def DLOG_BOUND : ℕ := 2 ^ 20

/-- Ciphertext in strictly `G1 x G1` (class `CTG1`, `lhe.py` lines 12-21).
Both points are represented by their discrete logs base `g1`. -/
structure CTG1 where
  g1r : ZMod q
  g1m_pr : ZMod q
deriving DecidableEq

/-- Ciphertext in strictly `G2 x G2` (class `CTG2`, `lhe.py` lines 24-33). -/
structure CTG2 where
  g2r : ZMod q
  g2m_pr : ZMod q
deriving DecidableEq

/-- Level-2 ciphertext in `GT^4` (class `CTGT`, `lhe.py` lines 36-54).
The four GT elements are represented by their discrete logs base `z1`. -/
structure CTGT where
  z_r1_r2 : ZMod q
  z_m2_s2_r2__r1 : ZMod q
  z_m1_s1_r1__r2 : ZMod q
  z_m1_s1_r1__m2_s2_r2 : ZMod q
deriving DecidableEq

/-- All-purpose (dual) level-1 ciphertext using both G1 and G2
(class `CT1`, `lhe.py` lines 57-114). -/
structure CT1 where
  ctg1 : CTG1
  ctg2 : CTG2
deriving DecidableEq

/-- Level-2 ciphertext, wrapper around `GT^4` (class `CT2`, `lhe.py`
lines 117-134). -/
structure CT2 where
  ctgt : CTGT
deriving DecidableEq

/-- Dual secret key for decryption (class `SK`, `lhe.py` lines 149-152). -/
structure SK where
  s1 : ZMod q
  s2 : ZMod q
deriving DecidableEq

/-- Dual public key for encryption (class `PK`, `lhe.py` lines 155-158).
The public points `p1 = g1 * s1 : G1` and `p2 = g2 * s2 : G2` are
represented by their discrete logs, so for an honestly generated keypair
(`keygen`, lines 184-188) `p1 = sk.s1` and `p2 = sk.s2` as scalars. -/
structure PK where
  p1 : ZMod q
  p2 : ZMod q
deriving DecidableEq

/-- Python runtime value that can appear as the second operand of the
overloaded `__mul__` / `__rmul__` methods: an `int`, an `Fr` scalar, a
`CT1` ciphertext, or any other object (`other`). -/
inductive Operand where
  | int : ℤ → Operand
  | fr : ZMod q → Operand
  | ct1 : CT1 → Operand
  | other : Operand
deriving DecidableEq

/-- Operand classes (a) `int` and (b) `Fr` accepted by the scalar
branches of `CT1.__mul__`, `CT1.__rmul__` and `CT2.__mul__`. -/
def Operand.isScalar : Operand → Bool
  | .int _ => true
  | .fr _ => true
  | _ => false

/-- Function `encrypt_G1(p, m)` (`lhe.py` lines 191-197) with the fresh
random scalar `r = Fr()` made explicit: `(g1 * r, g1 * Fr(m) + p * r)`. -/
def encrypt_G1 (p : ZMod q) (m : ℕ) (r : ZMod q) : CTG1 :=
  ⟨r, (m : ZMod q) + p * r⟩

/-- Function `encrypt_G2(p, m)` (`lhe.py` lines 200-206). -/
def encrypt_G2 (p : ZMod q) (m : ℕ) (r : ZMod q) : CTG2 :=
  ⟨r, (m : ZMod q) + p * r⟩

/-- Function `encrypt_GT(p1, p2, m)` (`lhe.py` lines 209-236) with the
three fresh scalars `r, s, t` explicit.  Components (as `z1` exponents):
`z1 ** (r + s - t)`, `(g1 @ p2) ** r = z1 ** (p2 * r)`,
`(p1 @ g2) ** s = z1 ** (p1 * s)`,
`(p1 @ p2) ** t * z1 ** Fr(m) = z1 ** (p1 * p2 * t + m)`. -/
def encrypt_GT (p1 p2 : ZMod q) (m : ℕ) (r s t : ZMod q) : CTGT :=
  ⟨r + s - t, p2 * r, p1 * s, p1 * p2 * t + (m : ZMod q)⟩

/-- Function `encrypt_lvl_1(pk, m)` (`lhe.py` lines 239-243); the two
halves use independent fresh randomness `r1`, `r2`. -/
def encrypt_lvl_1 (pk : PK) (m : ℕ) (r1 r2 : ZMod q) : CT1 :=
  ⟨encrypt_G1 pk.p1 m r1, encrypt_G2 pk.p2 m r2⟩

/-- Function `encrypt_lvl_2(pk, m)` (`lhe.py` lines 246-249). -/
def encrypt_lvl_2 (pk : PK) (m : ℕ) (r s t : ZMod q) : CT2 :=
  ⟨encrypt_GT pk.p1 pk.p2 m r s t⟩

/-- Function `add_G1` (`lhe.py` lines 252-257): componentwise point
addition in G1. -/
def add_G1 (c1 c2 : CTG1) : CTG1 :=
  ⟨c1.g1r + c2.g1r, c1.g1m_pr + c2.g1m_pr⟩

/-- Function `add_G2` (`lhe.py` lines 260-265). -/
def add_G2 (c1 c2 : CTG2) : CTG2 :=
  ⟨c1.g2r + c2.g2r, c1.g2m_pr + c2.g2m_pr⟩

/-- Function `add_GT` (`lhe.py` lines 268-275): componentwise GT
multiplication, which is addition of the `z1` exponents. -/
def add_GT (c1 c2 : CTGT) : CTGT :=
  ⟨c1.z_r1_r2 + c2.z_r1_r2,
   c1.z_m2_s2_r2__r1 + c2.z_m2_s2_r2__r1,
   c1.z_m1_s1_r1__r2 + c2.z_m1_s1_r1__r2,
   c1.z_m1_s1_r1__m2_s2_r2 + c2.z_m1_s1_r1__m2_s2_r2⟩

/-- Function `multiply_G1_G2(ct1, ct2)` (`lhe.py` lines 278-305): the
four pairings of the components; `e(g1 * a, g2 * b) = z1 ** (a * b)`. -/
def multiply_G1_G2 (c1 : CTG1) (c2 : CTG2) : CTGT :=
  ⟨c1.g1r * c2.g2r,
   c1.g1r * c2.g2m_pr,
   c1.g1m_pr * c2.g2r,
   c1.g1m_pr * c2.g2m_pr⟩

/-- Method `CT1.__add__` (`lhe.py` lines 62-66). -/
def CT1.add (a b : CT1) : CT1 :=
  ⟨add_G1 a.ctg1 b.ctg1, add_G2 a.ctg2 b.ctg2⟩

/-- Method `CT2.__add__` (`lhe.py` lines 121-122). -/
def CT2.add (a b : CT2) : CT2 :=
  ⟨add_GT a.ctgt b.ctgt⟩

/-- Scalar branch shared by `CT1.__mul__` and `CT1.__rmul__`
(`lhe.py` lines 71-81 and 92-102): every point of the ciphertext is
multiplied by the scalar. -/
def CT1.scale (c : CT1) (a : ZMod q) : CT1 :=
  ⟨⟨c.ctg1.g1r * a, c.ctg1.g1m_pr * a⟩, ⟨c.ctg2.g2r * a, c.ctg2.g2m_pr * a⟩⟩

/-- Method `CTGT.__mul__` with an `Fr` (`lhe.py` lines 48-54): every GT
component is raised to the scalar, i.e. exponents are multiplied. -/
def CTGT.scale (c : CTGT) (a : ZMod q) : CTGT :=
  ⟨c.z_r1_r2 * a, c.z_m2_s2_r2__r1 * a, c.z_m1_s1_r1__r2 * a,
   c.z_m1_s1_r1__m2_s2_r2 * a⟩

/-- Method `CT1.__mul__(self, other)` (`lhe.py` lines 68-87).  An `int`
is first converted through `Fr`; an `Fr` selects the scalar branch; any
other operand reaches the `else` branch `multiply_G1_G2(other.ctg1,
self.ctg2)`, which succeeds for a `CT1` operand and raises
`AttributeError` for anything else.  The `ct or ...` fallback on line 85
is dead code: a `CTGT` is a 4-tuple, hence always truthy in Python. -/
def CT1.mul (c : CT1) : Operand → Except String (CT1 ⊕ CT2)
  | .int k => .ok (.inl (c.scale ((k : ℤ) : ZMod q)))
  | .fr a => .ok (.inl (c.scale a))
  | .ct1 o => .ok (.inr ⟨multiply_G1_G2 o.ctg1 c.ctg2⟩)
  | .other => .error "AttributeError: object has no attribute ctg1"

/-- Method `CT1.__rmul__(self, other)` (`lhe.py` lines 89-102).  The
body handles only `int` and `Fr`; any other operand falls off the end
of the function, which in Python silently returns `None`. -/
def CT1.rmul (c : CT1) : Operand → Option CT1
  | .int k => some (c.scale ((k : ℤ) : ZMod q))
  | .fr a => some (c.scale a)
  | .ct1 _ => none
  | .other => none

/-- Method `CT2.__mul__(self, other)` (`lhe.py` lines 124-131): scalar
multiplication for `int` / `Fr`, a raised `TypeError` otherwise. -/
def CT2.mul (c : CT2) : Operand → Except String CT2
  | .int k => .ok ⟨c.ctgt.scale ((k : ℤ) : ZMod q)⟩
  | .fr a => .ok ⟨c.ctgt.scale a⟩
  | .ct1 _ => .error "Cannot perform constant multiplication with these operands."
  | .other => .error "Cannot perform constant multiplication with these operands."

/-- Method `CT2.__rmul__` (`lhe.py` lines 133-134): delegates to
`CT2.__mul__`. -/
def CT2.rmul (c : CT2) (o : Operand) : Except String CT2 :=
  c.mul o

/-- Domain searched by `dlog` when `unsigned=True`: `range(pow(2, 20))`
(`lhe.py` line 477). -/
def unsignedDomain : List ℤ :=
  (List.range DLOG_BOUND).map (fun i : ℕ => (i : ℤ))

/-- Domain searched by `dlog` when `unsigned=False` (the default): the
interleaved list `[e for i in range(pow(2, 20)) for e in (i, -i)]`,
i.e. `0, 0, 1, -1, 2, -2, ...` (`lhe.py` line 478). -/
def signedDomain : List ℤ :=
  (List.range DLOG_BOUND).flatMap (fun i : ℕ => [(i : ℤ), -(i : ℤ)])

/-- Search loop of `dlog` (`lhe.py` lines 480-486): walk the domain in
order, map each candidate through `Fr`, and return the first exponent
`e` with `base ** Fr(e) == power`; in the exponent representation the
test `base ** e == power` reads `B * e = P`.  (The `try`/`except
TypeError` in the source only switches between the multiplicative and
additive spelling of the same group action; both loops compute the same
function of the represented values.) -/
def findExp (B P : ZMod q) : List ℤ → Option (ZMod q)
  | [] => none
  | e :: rest => if B * ((e : ℤ) : ZMod q) = P then some ((e : ℤ) : ZMod q)
                 else findExp B P rest

/-- Function `dlog(base, power, unsigned=False)` (`lhe.py` lines
443-488), for `base` an element represented by exponent `B` and `power`
represented by exponent `P` of the same group generator. -/
def dlog (B P : ZMod q) (unsigned : Bool) : Option (ZMod q) :=
  findExp B P (if unsigned then unsignedDomain else signedDomain)

/-- Function `decrypt_G1(s1, ct)` (`lhe.py` lines 308-318):
`dlog(g1, ct.g1m_pr - ct.g1r * s1)` with the default signed search;
the base `g1` is the generator, exponent `1`. -/
def decrypt_G1 (s1 : ZMod q) (ct : CTG1) : Option (ZMod q) :=
  dlog 1 (ct.g1m_pr - ct.g1r * s1) false

/-- Function `decrypt_G2(s2, ct)` (`lhe.py` lines 321-331). -/
def decrypt_G2 (s2 : ZMod q) (ct : CTG2) : Option (ZMod q) :=
  dlog 1 (ct.g2m_pr - ct.g2r * s2) false

/-- Unmasking expression of `decrypt_GT` (`lhe.py` lines 394-398): the
`z1` exponent of `ct.z_r1_r2 ** (s1*s2) * ct.z_m2_s2_r2__r1 ** (-s1) *
ct.z_m1_s1_r1__r2 ** (-s2) * ct.z_m1_s1_r1__m2_s2_r2`. -/
def unmask_GT (s1 s2 : ZMod q) (ct : CTGT) : ZMod q :=
  ct.z_r1_r2 * (s1 * s2) + ct.z_m2_s2_r2__r1 * (-s1) +
    ct.z_m1_s1_r1__r2 * (-s2) + ct.z_m1_s1_r1__m2_s2_r2

/-- Function `decrypt_GT(s1, s2, ct)` (`lhe.py` lines 334-399):
`dlog(z1, z1_m1_m2)` where `z1` is the GT generator (exponent `1`). -/
def decrypt_GT (s1 s2 : ZMod q) (ct : CTGT) : Option (ZMod q) :=
  dlog 1 (unmask_GT s1 s2 ct) false

/-- Tagged union of the ciphertext kinds accepted by the type-generic
`decrypt` (`lhe.py` line 402): `Union[CT1, CT2, CTG1, CTG2, CTGT]`. -/
inductive CT where
  | ct1 : CT1 → CT
  | ct2 : CT2 → CT
  | ctg1 : CTG1 → CT
  | ctg2 : CTG2 → CT
  | ctgt : CTGT → CT
deriving DecidableEq

/-- Function `decrypt(sk, ct)` (`lhe.py` lines 402-440), dispatching on
the runtime type of the ciphertext.  For `CT1` the source computes
`pt = decrypt_G1(sk.s1, ct.ctg1); return pt or decrypt_G2(sk.s2,
ct.ctg2)`: `pt` is either `None` (falsy) or an `mclbn256.Fr` object,
and `Fr` defines no `__bool__`/`__len__`, so every `Fr` value —
including `Fr(0)` — is truthy; the Python `or` therefore falls through
to the G2 half exactly when `decrypt_G1` returned `None`, which is
`Option.orElse`. -/
def decrypt (sk : SK) : CT → Option (ZMod q)
  | .ct2 c => decrypt_GT sk.s1 sk.s2 c.ctgt
  | .ct1 c => (decrypt_G1 sk.s1 c.ctg1).orElse (fun _ => decrypt_G2 sk.s2 c.ctg2)
  | .ctgt c => decrypt_GT sk.s1 sk.s2 c
  | .ctg1 c => decrypt_G1 sk.s1 c
  | .ctg2 c => decrypt_G2 sk.s2 c

/-- Search loop of the duplicate `dlog` prototype in `level_d.py`
(lines 221-264): `for exponent in map(Fr, range(pow(2, 20)))`, returning
the first hit, translated as a counting loop from `i` with `fuel`
iterations remaining. -/
def levelD_dlogAux (B P : ZMod q) : ℕ → ℕ → Option (ZMod q)
  | _, 0 => none
  | i, Nat.succ fuel =>
      if B * (i : ZMod q) = P then some ((i : ZMod q))
      else levelD_dlogAux B P (i + 1) fuel

/-- Function `dlog(base, power)` of `level_d.py` (lines 221-264): the
unsigned-only linear search over `range(pow(2, 20))`. -/
def levelD_dlog (B P : ZMod q) : Option (ZMod q) :=
  levelD_dlogAux B P 0 DLOG_BOUND

/-- Plaintext modulus of the recursive masking layer. Modelled from the
spec: a fixed small modulus `p = 2^k` (default `k = 10`) is used for the
arithmetic of the recursive masking layer; all `masked` fields live in
`Z/p`. -/
def p : ℕ := 2 ^ 10

instance : NeZero p := ⟨by decide⟩

/-- Recursive level-d ciphertext. Modelled from the spec: `CT_D(1) =
CT_1`; `CT_D(l) = (l, masked, enc_mask)` where `masked` lives in `Z/p`
and `enc_mask` is a `CT_D(l-1)`.  The source under `src/` only declares
the shape (`class CTI(NamedTuple): lvl; inner; extension` in
`level_d.py` lines 13-17); the recursive constructors and operators are
absent from `src/`, so they are modelled from the spec. -/
inductive CTD where
  | lvl1 : CT1 → CTD
  | node : ℕ → ZMod p → CTD → CTD

/-- Modelled from the spec: `encrypt_D(PK, l, m)`: if `l == 1` return
`encrypt_lvl_1(PK, m)`; if `2 <= l` sample `b` from `Z/p` uniformly and
return `CT_D(l, (m - b) mod p, encrypt_D(PK, l-1, b))`.  The uniform
masks are supplied explicitly in `bs` (head first) and the level-1 leaf
draws the explicit randomness `r1`, `r2`; level `0` is treated like the
level-1 base case (the spec defines levels from 1). -/
def encrypt_D (pk : PK) (r1 r2 : ZMod q) : ℕ → ℕ → List (ZMod p) → CTD
  | 0, m, _ => .lvl1 (encrypt_lvl_1 pk m r1 r2)
  | 1, m, _ => .lvl1 (encrypt_lvl_1 pk m r1 r2)
  | l + 2, m, bs =>
      .node (l + 2) ((m : ZMod p) - bs.headD 0)
        (encrypt_D pk r1 r2 (l + 1) (bs.headD 0).val bs.tail)

/-- Modelled from the spec: decryption of recursive ciphertexts:
`CT_D(l=1) = CT_1` decrypts as a dual level-1 ciphertext (the integer
plaintext is read back modulo `p`); `CT_D(l>=2)` decrypts to
`(ct.masked + decrypt(SK, ct.enc_mask)) mod p`. -/
def decrypt_D (sk : SK) : CTD → Option (ZMod p)
  | .lvl1 c => (decrypt sk (.ct1 c)).map (fun v => ((v.val : ℕ) : ZMod p))
  | .node _ masked inner => (decrypt_D sk inner).map (fun w => masked + w)

/-! Arithmetic helper lemmas about casts into `ZMod q`. -/

/-- The group order dwarfs twice the dlog search bound. -/
lemma q_big : 2 * DLOG_BOUND < q := by decide

/-- Casting is injective on naturals below the group order. -/
lemma natCast_inj_of_lt {a b : ℕ} (ha : a < q) (hb : b < q)
    (h : (a : ZMod q) = (b : ZMod q)) : a = b := by
  have h' := congrArg ZMod.val h
  rwa [ZMod.val_cast_of_lt ha, ZMod.val_cast_of_lt hb] at h'

/-- A sum of naturals strictly between 0 and the group order does not
vanish in `ZMod q`. -/
lemma natCast_add_ne_zero {a b : ℕ} (hpos : 0 < a + b) (hlt : a + b < q) :
    (a : ZMod q) + (b : ZMod q) ≠ 0 := by
  intro h
  rw [← Nat.cast_add] at h
  have hdvd : q ∣ a + b := (ZMod.natCast_zmod_eq_zero_iff_dvd _ _).mp h
  exact absurd (Nat.le_of_dvd hpos hdvd) (not_le.mpr hlt)

/-! Behaviour of the `dlog` search loop. -/

/-- The search returns `none` on a domain with no hit. -/
lemma findExp_eq_none {B P : ZMod q} {l : List ℤ}
    (h : ∀ e ∈ l, B * ((e : ℤ) : ZMod q) ≠ P) : findExp B P l = none := by
  induction l with
  | nil => rfl
  | cons e rest ih =>
      rw [findExp, if_neg (h e (List.mem_cons_self e rest))]
      exact ih (fun e' he' => h e' (List.mem_cons_of_mem e he'))

/-- The search skips a miss-only prefix of its domain. -/
lemma findExp_append_of_misses {B P : ZMod q} {l1 l2 : List ℤ}
    (h : ∀ e ∈ l1, B * ((e : ℤ) : ZMod q) ≠ P) :
    findExp B P (l1 ++ l2) = findExp B P l2 := by
  induction l1 with
  | nil => rfl
  | cons e rest ih =>
      rw [List.cons_append, findExp, if_neg (h e (List.mem_cons_self e rest))]
      exact ih (fun e' he' => h e' (List.mem_cons_of_mem e he'))

/-- Any exponent the search returns satisfies the search equation. -/
lemma findExp_sound {B P x : ZMod q} {l : List ℤ}
    (h : findExp B P l = some x) : B * x = P := by
  induction l with
  | nil => exact absurd h (by simp [findExp])
  | cons e rest ih =>
      rw [findExp] at h
      by_cases he : B * ((e : ℤ) : ZMod q) = P
      · rw [if_pos he] at h
        obtain rfl : ((e : ℤ) : ZMod q) = x := Option.some_injective _ h
        exact he
      · rw [if_neg he] at h
        exact ih h

/-- Elements of the interleaved domain built from `range n` are `i` or
`-i` for some `i < n`. -/
lemma mem_interleaved {e : ℤ} {n : ℕ}
    (h : e ∈ (List.range n).flatMap (fun i => [(i : ℤ), -(i : ℤ)])) :
    ∃ i : ℕ, i < n ∧ (e = (i : ℤ) ∨ e = -(i : ℤ)) := by
  obtain ⟨i, hi, hmem⟩ := List.mem_flatMap.mp h
  exact ⟨i, List.mem_range.mp hi, by simpa using hmem⟩

/-- Decomposition of the signed search domain around position `m`: the
interleaved pairs below `m`, then `m, -m`, then the rest. -/
lemma signedDomain_decomp (m k : ℕ) (hk : DLOG_BOUND = (m + 1) + k) :
    signedDomain
      = ((List.range m).flatMap (fun i => [(i : ℤ), -(i : ℤ)]))
        ++ ((m : ℤ) :: (-(m : ℤ))
          :: ((List.range k).map (fun x => m + 1 + x)).flatMap
              (fun i => [(i : ℤ), -(i : ℤ)])) := by
  rw [signedDomain, hk, List.range_add, List.flatMap_append, List.range_succ,
    List.flatMap_append, List.append_assoc]
  simp

/-- The default (signed) search at the group generator finds any
plaintext below the bound. -/
lemma dlog_signed_pos (m : ℕ) (hm : m < DLOG_BOUND) :
    dlog 1 (m : ZMod q) false = some (m : ZMod q) := by
  have hq : DLOG_BOUND < q := lt_of_le_of_lt (by omega) q_big
  have hq2 : 2 * DLOG_BOUND < q := q_big
  obtain ⟨k, hk⟩ : ∃ k, DLOG_BOUND = (m + 1) + k := ⟨DLOG_BOUND - (m + 1), by omega⟩
  have hmiss : ∀ e ∈ (List.range m).flatMap (fun i => [(i : ℤ), -(i : ℤ)]),
      (1 : ZMod q) * ((e : ℤ) : ZMod q) ≠ (m : ZMod q) := by
    intro e he
    obtain ⟨i, hi, hcase⟩ := mem_interleaved he
    rcases hcase with rfl | rfl
    · intro hEq
      rw [one_mul] at hEq
      push_cast at hEq
      have : i = m := natCast_inj_of_lt (by omega) (by omega) hEq
      omega
    · intro hEq
      rw [one_mul] at hEq
      push_cast at hEq
      have hzero : (i : ZMod q) + (m : ZMod q) = 0 := by
        rw [← hEq]; ring
      exact natCast_add_ne_zero (by omega) (by omega) hzero
  rw [dlog, if_neg (by simp), signedDomain_decomp m k hk,
    findExp_append_of_misses hmiss, findExp, if_pos (by push_cast; ring)]
  norm_num

/-- The default (signed) search finds a negated plaintext below the
bound, returning the negative exponent. -/
lemma dlog_signed_neg (m : ℕ) (h0 : 0 < m) (hm : m < DLOG_BOUND) :
    dlog 1 (-(m : ZMod q)) false = some (-(m : ZMod q)) := by
  have hq : DLOG_BOUND < q := lt_of_le_of_lt (by omega) q_big
  have hq2 : 2 * DLOG_BOUND < q := q_big
  obtain ⟨k, hk⟩ : ∃ k, DLOG_BOUND = (m + 1) + k := ⟨DLOG_BOUND - (m + 1), by omega⟩
  have hmiss : ∀ e ∈ (List.range m).flatMap (fun i => [(i : ℤ), -(i : ℤ)]),
      (1 : ZMod q) * ((e : ℤ) : ZMod q) ≠ -(m : ZMod q) := by
    intro e he
    obtain ⟨i, hi, hcase⟩ := mem_interleaved he
    rcases hcase with rfl | rfl
    · intro hEq
      rw [one_mul] at hEq
      push_cast at hEq
      have hzero : (i : ZMod q) + (m : ZMod q) = 0 := by
        rw [eq_neg_iff_add_eq_zero] at hEq
        exact hEq
      exact natCast_add_ne_zero (by omega) (by omega) hzero
    · intro hEq
      rw [one_mul] at hEq
      push_cast at hEq
      have : i = m := natCast_inj_of_lt (by omega) (by omega) (neg_injective hEq)
      omega
  rw [dlog, if_neg (by simp), signedDomain_decomp m k hk,
    findExp_append_of_misses hmiss, findExp, if_neg, findExp,
    if_pos (by push_cast; ring)]
  · norm_num
  · intro hEq
    rw [one_mul] at hEq
    push_cast at hEq
    have hzero : (m : ZMod q) + (m : ZMod q) = 0 := by
      rw [eq_neg_iff_add_eq_zero] at hEq
      exact hEq
    exact natCast_add_ne_zero (by omega) (by omega) hzero

/-- The default (signed) search misses every target whose exponent and
its complement both lie beyond the bound. -/
lemma dlog_signed_none (m : ℕ) (h1 : DLOG_BOUND ≤ m) (h2 : m + DLOG_BOUND ≤ q) :
    dlog 1 (m : ZMod q) false = none := by
  rw [dlog, if_neg (by simp), signedDomain]
  apply findExp_eq_none
  intro e he
  obtain ⟨i, hi, hcase⟩ := mem_interleaved he
  rcases hcase with rfl | rfl
  · intro hEq
    rw [one_mul] at hEq
    push_cast at hEq
    have : i = m := natCast_inj_of_lt (by omega) (by omega) hEq
    omega
  · intro hEq
    rw [one_mul] at hEq
    push_cast at hEq
    have hzero : (i : ZMod q) + (m : ZMod q) = 0 := by
      rw [← hEq]; ring
    exact natCast_add_ne_zero (by omega) (by omega) hzero

/-! Equivalence of the two dlog prototypes. -/

/-- The counting loop of `level_d.dlog` walks exactly the mapped range
that `lhe.dlog` materializes for its unsigned search. -/
lemma levelD_dlogAux_eq_findExp (B P : ZMod q) (n : ℕ) :
    ∀ i : ℕ, levelD_dlogAux B P i n
      = findExp B P ((List.range n).map (fun j => ((i + j : ℕ) : ℤ))) := by
  induction n with
  | zero => intro i; rfl
  | succ n ih =>
      intro i
      rw [List.range_succ_eq_map, List.map_cons, List.map_map]
      have hlist : (List.range n).map ((fun j => ((i + j : ℕ) : ℤ)) ∘ Nat.succ)
          = (List.range n).map (fun j => ((i + 1 + j : ℕ) : ℤ)) := by
        apply List.map_congr_left
        intro a _
        simp only [Function.comp]
        congr 1
        omega
      rw [hlist, levelD_dlogAux, findExp, ih (i + 1)]
      have hcast : (((i + 0 : ℕ) : ℤ) : ZMod q) = (i : ZMod q) := by push_cast; ring
      rw [hcast]

/-! Correctness of the individual decryption routines on honest
ciphertexts (public points equal to the generator times the secret). -/

/-- Decryption of a fresh G1 ciphertext under the matching secret. -/
lemma decrypt_G1_encrypt (s1 r : ZMod q) (m : ℕ) (hm : m < DLOG_BOUND) :
    decrypt_G1 s1 (encrypt_G1 s1 m r) = some (m : ZMod q) := by
  rw [decrypt_G1, encrypt_G1]
  have h : ((m : ZMod q) + s1 * r) - r * s1 = (m : ZMod q) := by ring
  rw [show (CTG1.mk r ((m : ZMod q) + s1 * r)).g1m_pr
        - (CTG1.mk r ((m : ZMod q) + s1 * r)).g1r * s1 = (m : ZMod q) from h]
  exact dlog_signed_pos m hm

/-- Decryption of a fresh G2 ciphertext under the matching secret. -/
lemma decrypt_G2_encrypt (s2 r : ZMod q) (m : ℕ) (hm : m < DLOG_BOUND) :
    decrypt_G2 s2 (encrypt_G2 s2 m r) = some (m : ZMod q) := by
  rw [decrypt_G2, encrypt_G2]
  have h : ((m : ZMod q) + s2 * r) - r * s2 = (m : ZMod q) := by ring
  rw [show (CTG2.mk r ((m : ZMod q) + s2 * r)).g2m_pr
        - (CTG2.mk r ((m : ZMod q) + s2 * r)).g2r * s2 = (m : ZMod q) from h]
  exact dlog_signed_pos m hm

/-- The unmasking expression collapses a direct GT encryption to the
plaintext exponent. -/
lemma unmask_GT_encrypt (s1 s2 r s t : ZMod q) (m : ℕ) :
    unmask_GT s1 s2 (encrypt_GT s1 s2 m r s t) = (m : ZMod q) := by
  rw [unmask_GT, encrypt_GT]
  ring

/-- Decryption of a fresh GT ciphertext under the matching secrets. -/
lemma decrypt_GT_encrypt (s1 s2 r s t : ZMod q) (m : ℕ) (hm : m < DLOG_BOUND) :
    decrypt_GT s1 s2 (encrypt_GT s1 s2 m r s t) = some (m : ZMod q) := by
  rw [decrypt_GT, unmask_GT_encrypt]
  exact dlog_signed_pos m hm

/-- Generic decryption of a fresh dual level-1 ciphertext: the G1 half
already succeeds, so its plaintext is returned. -/
lemma decrypt_encrypt_lvl_1 (s1 s2 r1 r2 : ZMod q) (m : ℕ) (hm : m < DLOG_BOUND) :
    decrypt ⟨s1, s2⟩ (.ct1 (encrypt_lvl_1 ⟨s1, s2⟩ m r1 r2)) = some (m : ZMod q) := by
  rw [decrypt, encrypt_lvl_1]
  rw [show (PK.mk s1 s2).p1 = s1 from rfl, show (PK.mk s1 s2).p2 = s2 from rfl]
  rw [show (CT1.mk (encrypt_G1 s1 m r1) (encrypt_G2 s2 m r2)).ctg1
        = encrypt_G1 s1 m r1 from rfl]
  rw [show (SK.mk s1 s2).s1 = s1 from rfl]
  rw [decrypt_G1_encrypt s1 r1 m hm]
  rfl

/-- The unmasking expression is additive in the ciphertext. -/
lemma unmask_GT_add (s1 s2 : ZMod q) (a b : CTGT) :
    unmask_GT s1 s2 (add_GT a b) = unmask_GT s1 s2 a + unmask_GT s1 s2 b := by
  rw [unmask_GT, unmask_GT, unmask_GT, add_GT]
  ring

/-- The unmasking expression commutes with scalar exponentiation. -/
lemma unmask_GT_scale (s1 s2 a : ZMod q) (c : CTGT) :
    unmask_GT s1 s2 (c.scale a) = unmask_GT s1 s2 c * a := by
  rw [unmask_GT, unmask_GT, CTGT.scale]
  ring

/-- The pairing product of two fresh complementary level-1 halves
unmasks to the product of the plaintexts. -/
lemma unmask_GT_multiply (s1 s2 r1 r2 : ZMod q) (m1 m2 : ℕ) :
    unmask_GT s1 s2 (multiply_G1_G2 (encrypt_G1 s1 m1 r1) (encrypt_G2 s2 m2 r2))
      = (m1 : ZMod q) * (m2 : ZMod q) := by
  rw [unmask_GT, multiply_G1_G2, encrypt_G1, encrypt_G2]
  ring

/-! Homomorphic addition and scaling reshape fresh ciphertexts into
fresh ciphertexts of the combined plaintext. -/

/-- Adding two fresh G1 ciphertexts yields a fresh G1 ciphertext of the
plaintext sum with combined randomness. -/
lemma add_G1_encrypt (s1 ra rb : ZMod q) (m m' : ℕ) :
    add_G1 (encrypt_G1 s1 m ra) (encrypt_G1 s1 m' rb)
      = encrypt_G1 s1 (m + m') (ra + rb) := by
  rw [add_G1, encrypt_G1, encrypt_G1, encrypt_G1, CTG1.mk.injEq]
  constructor
  · rfl
  · push_cast
    ring

/-- Adding two fresh G2 ciphertexts yields a fresh G2 ciphertext of the
plaintext sum. -/
lemma add_G2_encrypt (s2 ra rb : ZMod q) (m m' : ℕ) :
    add_G2 (encrypt_G2 s2 m ra) (encrypt_G2 s2 m' rb)
      = encrypt_G2 s2 (m + m') (ra + rb) := by
  rw [add_G2, encrypt_G2, encrypt_G2, encrypt_G2, CTG2.mk.injEq]
  constructor
  · rfl
  · push_cast
    ring

/-- Adding two fresh GT ciphertexts yields a fresh GT ciphertext of the
plaintext sum. -/
lemma add_GT_encrypt (p1 p2 r s t r' s' t' : ZMod q) (m m' : ℕ) :
    add_GT (encrypt_GT p1 p2 m r s t) (encrypt_GT p1 p2 m' r' s' t')
      = encrypt_GT p1 p2 (m + m') (r + r') (s + s') (t + t') := by
  rw [add_GT, encrypt_GT, encrypt_GT, encrypt_GT, CTGT.mk.injEq]
  refine ⟨by ring, by ring, by ring, ?_⟩
  push_cast
  ring

/-- Adding two fresh dual level-1 ciphertexts. -/
lemma add_lvl_1_encrypt (pk : PK) (ra1 ra2 rb1 rb2 : ZMod q) (m m' : ℕ) :
    CT1.add (encrypt_lvl_1 pk m ra1 ra2) (encrypt_lvl_1 pk m' rb1 rb2)
      = encrypt_lvl_1 pk (m + m') (ra1 + rb1) (ra2 + rb2) := by
  rw [CT1.add, encrypt_lvl_1, encrypt_lvl_1, encrypt_lvl_1]
  rw [CT1.mk.injEq]
  exact ⟨add_G1_encrypt pk.p1 ra1 rb1 m m', add_G2_encrypt pk.p2 ra2 rb2 m m'⟩

/-- Adding two fresh level-2 ciphertexts. -/
lemma add_lvl_2_encrypt (pk : PK) (r s t r' s' t' : ZMod q) (m m' : ℕ) :
    CT2.add (encrypt_lvl_2 pk m r s t) (encrypt_lvl_2 pk m' r' s' t')
      = encrypt_lvl_2 pk (m + m') (r + r') (s + s') (t + t') := by
  rw [CT2.add, encrypt_lvl_2, encrypt_lvl_2, encrypt_lvl_2]
  rw [CT2.mk.injEq]
  exact add_GT_encrypt pk.p1 pk.p2 r s t r' s' t' m m'

/-- Scaling a fresh dual level-1 ciphertext by the image of an integer
`k >= 0` yields a fresh ciphertext of `k * m`. -/
lemma scale_encrypt_lvl_1 (pk : PK) (r1 r2 : ZMod q) (m k : ℕ) :
    (encrypt_lvl_1 pk m r1 r2).scale (((k : ℕ) : ℤ) : ZMod q)
      = encrypt_lvl_1 pk (k * m) (r1 * ((k : ℕ) : ZMod q)) (r2 * ((k : ℕ) : ZMod q)) := by
  rw [CT1.scale, encrypt_lvl_1, encrypt_lvl_1, encrypt_G1, encrypt_G2,
    encrypt_G1, encrypt_G2, CT1.mk.injEq, CTG1.mk.injEq, CTG2.mk.injEq]
  refine ⟨⟨by push_cast; ring, by push_cast; ring⟩, by push_cast; ring, by push_cast; ring⟩

/-- Scaling a fresh GT ciphertext by the image of an integer `k >= 0`
yields a fresh GT ciphertext of `k * m`. -/
lemma scale_encrypt_GT (p1 p2 r s t : ZMod q) (m k : ℕ) :
    (encrypt_GT p1 p2 m r s t).scale (((k : ℕ) : ℤ) : ZMod q)
      = encrypt_GT p1 p2 (k * m) (r * ((k : ℕ) : ZMod q)) (s * ((k : ℕ) : ZMod q))
          (t * ((k : ℕ) : ZMod q)) := by
  rw [CTGT.scale, encrypt_GT, encrypt_GT, CTGT.mk.injEq]
  refine ⟨by push_cast; ring, by push_cast; ring, by push_cast; ring, by push_cast; ring⟩

/-- Round trip of the recursive construction: decrypting an encryption
at any level returns the plaintext modulo `p`, whatever masks were
drawn. -/
lemma decrypt_D_encrypt_D (s1 s2 r1 r2 : ZMod q) :
    ∀ (l m : ℕ) (bs : List (ZMod p)), m < p →
      decrypt_D ⟨s1, s2⟩ (encrypt_D ⟨s1, s2⟩ r1 r2 l m bs) = some ((m : ℕ) : ZMod p)
  | 0, m, bs, hm => by
      rw [encrypt_D, decrypt_D,
        decrypt_encrypt_lvl_1 s1 s2 r1 r2 m (lt_trans hm (by decide)),
        Option.map_some', ZMod.val_cast_of_lt (lt_trans hm (by decide))]
  | 1, m, bs, hm => by
      rw [encrypt_D, decrypt_D,
        decrypt_encrypt_lvl_1 s1 s2 r1 r2 m (lt_trans hm (by decide)),
        Option.map_some', ZMod.val_cast_of_lt (lt_trans hm (by decide))]
  | l + 2, m, bs, hm => by
      rw [encrypt_D, decrypt_D,
        decrypt_D_encrypt_D s1 s2 r1 r2 (l + 1) (bs.headD 0).val bs.tail
          (ZMod.val_lt (bs.headD 0)),
        Option.map_some', ZMod.natCast_rightInverse (bs.headD 0)]
      congr 1
      ring

/-! Claim theorems. -/

/-- C1: For every plaintext `m` in `[0, 2^20)` and every freshly
generated dual keypair `(sk, pk) = keygen()` — arbitrary secret scalars
`s1, s2`, public points the generators times the secrets, arbitrary
encryption randomness `r1, r2` — `decrypt(sk, encrypt_lvl_1(pk, m))`
returns `m`. -/
theorem claim_C1_lvl1_roundtrip (s1 s2 r1 r2 : ZMod q) (m : ℕ)
    (hm : m < DLOG_BOUND) :
    decrypt ⟨s1, s2⟩ (.ct1 (encrypt_lvl_1 ⟨s1, s2⟩ m r1 r2)) = some (m : ZMod q) :=
  decrypt_encrypt_lvl_1 s1 s2 r1 r2 m hm

/-- Witness for C1 at concrete key material, randomness and plaintext. -/
theorem claim_C1_witness :
    decrypt ⟨5, 7⟩ (.ct1 (encrypt_lvl_1 ⟨5, 7⟩ 42 3 11)) = some ((42 : ℕ) : ZMod q) :=
  claim_C1_lvl1_roundtrip 5 7 3 11 42 (by decide)

/-- C2: For every plaintext `m` in `[0, 2^20)` and every fresh dual
keypair, `decrypt(sk, encrypt_GT(pk.p1, pk.p2, m))` returns `m`; the
unmasking product `c0^(s1*s2) * c1^(-s1) * c2^(-s2) * c3` collapses all
random exponents and leaves `z^m`. -/
theorem claim_C2_GT_roundtrip (s1 s2 r s t : ZMod q) (m : ℕ)
    (hm : m < DLOG_BOUND) :
    unmask_GT s1 s2 (encrypt_GT s1 s2 m r s t) = (m : ZMod q) ∧
    decrypt ⟨s1, s2⟩ (.ctgt (encrypt_GT s1 s2 m r s t)) = some (m : ZMod q) :=
  ⟨unmask_GT_encrypt s1 s2 r s t m, decrypt_GT_encrypt s1 s2 r s t m hm⟩

/-- Witness for C2 at concrete inputs. -/
theorem claim_C2_witness :
    unmask_GT 5 7 (encrypt_GT 5 7 42 3 11 13) = ((42 : ℕ) : ZMod q) ∧
    decrypt ⟨5, 7⟩ (.ctgt (encrypt_GT 5 7 42 3 11 13)) = some ((42 : ℕ) : ZMod q) :=
  claim_C2_GT_roundtrip 5 7 3 11 13 42 (by decide)

/-- C3: Multiplying the level-1 ciphertexts of `m` and `m'` (with
`m * m' < 2^20`) under the same fresh keypair yields a level-2
ciphertext that decrypts to `m * m'`.  The product `a * b` computes
`CT2(multiply_G1_G2(b.ctg1, a.ctg2))`. -/
theorem claim_C3_mul_homomorphism (s1 s2 r1 r2 r1' r2' : ZMod q) (m m' : ℕ)
    (hmm : m * m' < DLOG_BOUND) :
    (encrypt_lvl_1 ⟨s1, s2⟩ m r1 r2).mul (.ct1 (encrypt_lvl_1 ⟨s1, s2⟩ m' r1' r2'))
        = .ok (.inr ⟨multiply_G1_G2 (encrypt_G1 s1 m' r1') (encrypt_G2 s2 m r2)⟩) ∧
    decrypt ⟨s1, s2⟩ (.ct2 ⟨multiply_G1_G2 (encrypt_G1 s1 m' r1') (encrypt_G2 s2 m r2)⟩)
        = some ((m * m' : ℕ) : ZMod q) := by
  constructor
  · rfl
  · show decrypt_GT s1 s2 _ = _
    rw [decrypt_GT, unmask_GT_multiply,
      show (m' : ZMod q) * (m : ZMod q) = ((m * m' : ℕ) : ZMod q) from by push_cast; ring]
    exact dlog_signed_pos (m * m') hmm

/-- Witness for C3 at concrete inputs: 6 * 111 = 666. -/
theorem claim_C3_witness :
    (encrypt_lvl_1 ⟨5, 7⟩ 6 3 11).mul (.ct1 (encrypt_lvl_1 ⟨5, 7⟩ 111 13 17))
        = .ok (.inr ⟨multiply_G1_G2 (encrypt_G1 5 111 13) (encrypt_G2 7 6 11)⟩) ∧
    decrypt ⟨5, 7⟩ (.ct2 ⟨multiply_G1_G2 (encrypt_G1 5 111 13) (encrypt_G2 7 6 11)⟩)
        = some ((6 * 111 : ℕ) : ZMod q) :=
  claim_C3_mul_homomorphism 5 7 3 11 13 17 6 111 (by decide)

/-- C4: For two ciphertexts of the same kind (CT_G1, CT_G2, CT_GT,
CT_1 or CT_2) encrypting `m` and `m'` with `m + m' < 2^20` under the
same fresh keypair, the homomorphic sum decrypts to `m + m'` while the
operands decrypt to `m` and `m'` — i.e. decryption is additive. -/
theorem claim_C4_add_homomorphism (s1 s2 ra1 ra2 rb1 rb2 r s t r' s' t' : ZMod q)
    (m m' : ℕ) (hsum : m + m' < DLOG_BOUND) :
    (decrypt ⟨s1, s2⟩ (.ctg1 (add_G1 (encrypt_G1 s1 m ra1) (encrypt_G1 s1 m' rb1)))
        = some ((m + m' : ℕ) : ZMod q)
      ∧ decrypt ⟨s1, s2⟩ (.ctg1 (encrypt_G1 s1 m ra1)) = some (m : ZMod q)
      ∧ decrypt ⟨s1, s2⟩ (.ctg1 (encrypt_G1 s1 m' rb1)) = some (m' : ZMod q))
    ∧ (decrypt ⟨s1, s2⟩ (.ctg2 (add_G2 (encrypt_G2 s2 m ra2) (encrypt_G2 s2 m' rb2)))
        = some ((m + m' : ℕ) : ZMod q)
      ∧ decrypt ⟨s1, s2⟩ (.ctg2 (encrypt_G2 s2 m ra2)) = some (m : ZMod q)
      ∧ decrypt ⟨s1, s2⟩ (.ctg2 (encrypt_G2 s2 m' rb2)) = some (m' : ZMod q))
    ∧ (decrypt ⟨s1, s2⟩
          (.ctgt (add_GT (encrypt_GT s1 s2 m r s t) (encrypt_GT s1 s2 m' r' s' t')))
        = some ((m + m' : ℕ) : ZMod q)
      ∧ decrypt ⟨s1, s2⟩ (.ctgt (encrypt_GT s1 s2 m r s t)) = some (m : ZMod q)
      ∧ decrypt ⟨s1, s2⟩ (.ctgt (encrypt_GT s1 s2 m' r' s' t')) = some (m' : ZMod q))
    ∧ (decrypt ⟨s1, s2⟩
          (.ct1 (CT1.add (encrypt_lvl_1 ⟨s1, s2⟩ m ra1 ra2) (encrypt_lvl_1 ⟨s1, s2⟩ m' rb1 rb2)))
        = some ((m + m' : ℕ) : ZMod q)
      ∧ decrypt ⟨s1, s2⟩ (.ct1 (encrypt_lvl_1 ⟨s1, s2⟩ m ra1 ra2)) = some (m : ZMod q)
      ∧ decrypt ⟨s1, s2⟩ (.ct1 (encrypt_lvl_1 ⟨s1, s2⟩ m' rb1 rb2)) = some (m' : ZMod q))
    ∧ (decrypt ⟨s1, s2⟩
          (.ct2 (CT2.add (encrypt_lvl_2 ⟨s1, s2⟩ m r s t) (encrypt_lvl_2 ⟨s1, s2⟩ m' r' s' t')))
        = some ((m + m' : ℕ) : ZMod q)
      ∧ decrypt ⟨s1, s2⟩ (.ct2 (encrypt_lvl_2 ⟨s1, s2⟩ m r s t)) = some (m : ZMod q)
      ∧ decrypt ⟨s1, s2⟩ (.ct2 (encrypt_lvl_2 ⟨s1, s2⟩ m' r' s' t')) = some (m' : ZMod q)) := by
  have hm : m < DLOG_BOUND := by omega
  have hm' : m' < DLOG_BOUND := by omega
  refine ⟨⟨?_, ?_, ?_⟩, ⟨?_, ?_, ?_⟩, ⟨?_, ?_, ?_⟩, ⟨?_, ?_, ?_⟩, ⟨?_, ?_, ?_⟩⟩
  · rw [show decrypt ⟨s1, s2⟩ (.ctg1 (add_G1 (encrypt_G1 s1 m ra1) (encrypt_G1 s1 m' rb1)))
          = decrypt_G1 s1 (add_G1 (encrypt_G1 s1 m ra1) (encrypt_G1 s1 m' rb1)) from rfl,
      add_G1_encrypt]
    exact decrypt_G1_encrypt s1 (ra1 + rb1) (m + m') hsum
  · exact decrypt_G1_encrypt s1 ra1 m hm
  · exact decrypt_G1_encrypt s1 rb1 m' hm'
  · rw [show decrypt ⟨s1, s2⟩ (.ctg2 (add_G2 (encrypt_G2 s2 m ra2) (encrypt_G2 s2 m' rb2)))
          = decrypt_G2 s2 (add_G2 (encrypt_G2 s2 m ra2) (encrypt_G2 s2 m' rb2)) from rfl,
      add_G2_encrypt]
    exact decrypt_G2_encrypt s2 (ra2 + rb2) (m + m') hsum
  · exact decrypt_G2_encrypt s2 ra2 m hm
  · exact decrypt_G2_encrypt s2 rb2 m' hm'
  · rw [show decrypt ⟨s1, s2⟩
            (.ctgt (add_GT (encrypt_GT s1 s2 m r s t) (encrypt_GT s1 s2 m' r' s' t')))
          = decrypt_GT s1 s2 (add_GT (encrypt_GT s1 s2 m r s t) (encrypt_GT s1 s2 m' r' s' t'))
          from rfl,
      add_GT_encrypt]
    exact decrypt_GT_encrypt s1 s2 (r + r') (s + s') (t + t') (m + m') hsum
  · exact decrypt_GT_encrypt s1 s2 r s t m hm
  · exact decrypt_GT_encrypt s1 s2 r' s' t' m' hm'
  · rw [show (⟨s1, s2⟩ : PK) = PK.mk s1 s2 from rfl, add_lvl_1_encrypt]
    exact decrypt_encrypt_lvl_1 s1 s2 (ra1 + rb1) (ra2 + rb2) (m + m') hsum
  · exact decrypt_encrypt_lvl_1 s1 s2 ra1 ra2 m hm
  · exact decrypt_encrypt_lvl_1 s1 s2 rb1 rb2 m' hm'
  · rw [add_lvl_2_encrypt]
    show decrypt_GT s1 s2 (encrypt_GT s1 s2 (m + m') (r + r') (s + s') (t + t')) = _
    exact decrypt_GT_encrypt s1 s2 (r + r') (s + s') (t + t') (m + m') hsum
  · exact decrypt_GT_encrypt s1 s2 r s t m hm
  · exact decrypt_GT_encrypt s1 s2 r' s' t' m' hm'

/-- Witness for C4 at concrete inputs: 3 + 4 = 7 on all five kinds. -/
theorem claim_C4_witness :
    decrypt ⟨5, 7⟩ (.ctg1 (add_G1 (encrypt_G1 5 3 2) (encrypt_G1 5 4 6)))
        = some ((3 + 4 : ℕ) : ZMod q)
      ∧ decrypt ⟨5, 7⟩
          (.ct1 (CT1.add (encrypt_lvl_1 ⟨5, 7⟩ 3 2 8) (encrypt_lvl_1 ⟨5, 7⟩ 4 6 9)))
        = some ((3 + 4 : ℕ) : ZMod q)
      ∧ decrypt ⟨5, 7⟩
          (.ct2 (CT2.add (encrypt_lvl_2 ⟨5, 7⟩ 3 10 11 12) (encrypt_lvl_2 ⟨5, 7⟩ 4 13 14 15)))
        = some ((3 + 4 : ℕ) : ZMod q) := by
  obtain ⟨h1, _, h3, h4, h5⟩ :=
    claim_C4_add_homomorphism 5 7 2 8 6 9 10 11 12 13 14 15 3 4 (by decide)
  exact ⟨h1.1, h4.1, h5.1⟩

/-- C5: For a fresh `CT_1` or `CT_2` ciphertext of `m` and any `k >= 0`
with `k * m < 2^20`, scalar multiplication (left `__mul__`, and
`__rmul__` for `CT_1`) is componentwise and the scaled ciphertext
decrypts to `k * m`. -/
theorem claim_C5_scalar_mul (s1 s2 r1 r2 r s t : ZMod q) (m k : ℕ)
    (hk : k * m < DLOG_BOUND) :
    ((encrypt_lvl_1 ⟨s1, s2⟩ m r1 r2).mul (.int (k : ℤ))
        = .ok (.inl ((encrypt_lvl_1 ⟨s1, s2⟩ m r1 r2).scale (((k : ℕ) : ℤ) : ZMod q)))
      ∧ (encrypt_lvl_1 ⟨s1, s2⟩ m r1 r2).rmul (.int (k : ℤ))
        = some ((encrypt_lvl_1 ⟨s1, s2⟩ m r1 r2).scale (((k : ℕ) : ℤ) : ZMod q))
      ∧ decrypt ⟨s1, s2⟩
          (.ct1 ((encrypt_lvl_1 ⟨s1, s2⟩ m r1 r2).scale (((k : ℕ) : ℤ) : ZMod q)))
        = some ((k * m : ℕ) : ZMod q))
    ∧ ((encrypt_lvl_2 ⟨s1, s2⟩ m r s t).mul (.int (k : ℤ))
        = .ok ⟨(encrypt_GT s1 s2 m r s t).scale (((k : ℕ) : ℤ) : ZMod q)⟩
      ∧ decrypt ⟨s1, s2⟩
          (.ct2 ⟨(encrypt_GT s1 s2 m r s t).scale (((k : ℕ) : ℤ) : ZMod q)⟩)
        = some ((k * m : ℕ) : ZMod q)) := by
  refine ⟨⟨rfl, rfl, ?_⟩, ⟨rfl, ?_⟩⟩
  · rw [scale_encrypt_lvl_1]
    exact decrypt_encrypt_lvl_1 s1 s2 _ _ (k * m) hk
  · rw [scale_encrypt_GT]
    show decrypt_GT s1 s2 _ = _
    exact decrypt_GT_encrypt s1 s2 _ _ _ (k * m) hk

/-- Witness for C5 at concrete inputs: 3 * 4 = 12. -/
theorem claim_C5_witness :
    decrypt ⟨5, 7⟩
        (.ct1 ((encrypt_lvl_1 ⟨5, 7⟩ 4 2 6).scale (((3 : ℕ) : ℤ) : ZMod q)))
      = some ((3 * 4 : ℕ) : ZMod q)
    ∧ decrypt ⟨5, 7⟩
        (.ct2 ⟨(encrypt_GT 5 7 4 10 11 12).scale (((3 : ℕ) : ℤ) : ZMod q)⟩)
      = some ((3 * 4 : ℕ) : ZMod q) := by
  obtain ⟨h1, h2⟩ := claim_C5_scalar_mul 5 7 2 6 10 11 12 4 3 (by decide)
  exact ⟨h1.2.2, h2.2⟩

/-- C6 counterexample: the claim asserts that with the default flag the
search is unsigned, returning only exponents in `[0, 2^20)` (and `None`
for a target reachable only by a negative exponent).  But the default
of the source is `unsigned=False`, the signed interleaved search: at
base `z1` (exponent 1) and target `z1^(-1)` the default call returns
the exponent `-1`, whose canonical representative `q - 1` lies far
above `2^20` — neither `None` nor an exponent in `[0, 2^20)`. -/
theorem claim_C6_counterexample :
    dlog 1 ((-1 : ℤ) : ZMod q) false = some ((-1 : ℤ) : ZMod q)
      ∧ DLOG_BOUND ≤ (((-1 : ℤ) : ZMod q)).val := by
  constructor
  · have hc : ((-1 : ℤ) : ZMod q) = -((1 : ℕ) : ZMod q) := by push_cast; ring
    rw [hc]
    exact dlog_signed_neg 1 (by decide) (by decide)
  · have hq2 : 2 * DLOG_BOUND < q := q_big
    have h0 : (((((-1 : ℤ) : ZMod q)).val + 1 : ℕ) : ZMod q) = 0 := by
      rw [Nat.cast_add, Nat.cast_one, ZMod.natCast_rightInverse ((-1 : ℤ) : ZMod q)]
      push_cast
      ring
    have hdvd : q ∣ (((-1 : ℤ) : ZMod q)).val + 1 :=
      (ZMod.natCast_zmod_eq_zero_iff_dvd _ _).mp h0
    have hge : q ≤ (((-1 : ℤ) : ZMod q)).val + 1 := Nat.le_of_dvd (by omega) hdvd
    omega

/-- C6 amended: `dlog` with its default flag (`unsigned=False`) performs
the signed interleaved search `0, 0, 1, -1, 2, -2, ...`: any returned
exponent satisfies the search equation; a target with exponent
`m ∈ [0, 2^20)` yields `m`; a target reachable only by a negative
exponent `-m` with `0 < m < 2^20` yields `-m` (not `None`); and a
target whose exponent lies beyond both windows yields `None`.  Passing
`unsigned=True` restricts the search to `[0, 2^20)`. -/
theorem claim_C6_dlog_default_signed :
    (∀ B P e : ZMod q, dlog B P false = some e → B * e = P)
      ∧ (∀ m : ℕ, m < DLOG_BOUND → dlog 1 (m : ZMod q) false = some (m : ZMod q))
      ∧ (∀ m : ℕ, 0 < m → m < DLOG_BOUND →
          dlog 1 (-(m : ZMod q)) false = some (-(m : ZMod q)))
      ∧ (∀ m : ℕ, DLOG_BOUND ≤ m → m + DLOG_BOUND ≤ q →
          dlog 1 (m : ZMod q) false = none) := by
  refine ⟨?_, dlog_signed_pos, dlog_signed_neg, dlog_signed_none⟩
  intro B P e h
  rw [dlog] at h
  exact findExp_sound h

/-- Witness for C6 (amended) at concrete inputs. -/
theorem claim_C6_witness :
    dlog 1 ((3 : ℕ) : ZMod q) false = some ((3 : ℕ) : ZMod q)
      ∧ dlog 1 (-((3 : ℕ) : ZMod q)) false = some (-((3 : ℕ) : ZMod q)) :=
  ⟨claim_C6_dlog_default_signed.2.1 3 (by decide),
   claim_C6_dlog_default_signed.2.2.1 3 (by decide) (by decide)⟩

/-- C7: `decrypt` on a `CT_1` returns the `decrypt_G1` result of the G1
half whenever that is `some` — in particular a successful decryption of
plaintext zero is returned as `some 0`, distinguishable from a failed
(`none`) decryption and independent of the (possibly corrupted) G2 half
— and consults `decrypt_G2` exactly when `decrypt_G1` yields `none`. -/
theorem claim_C7_ct1_dispatch (sk : SK) (c : CT1) (r : ZMod q) :
    (∀ v : ZMod q, decrypt_G1 sk.s1 c.ctg1 = some v → decrypt sk (.ct1 c) = some v)
      ∧ (decrypt_G1 sk.s1 c.ctg1 = none → decrypt sk (.ct1 c) = decrypt_G2 sk.s2 c.ctg2)
      ∧ (∀ junk : CTG2,
          decrypt sk (.ct1 ⟨encrypt_G1 sk.s1 0 r, junk⟩) = some 0
            ∧ decrypt sk (.ct1 ⟨encrypt_G1 sk.s1 0 r, junk⟩) ≠ none) := by
  refine ⟨?_, ?_, ?_⟩
  · intro v h
    show (decrypt_G1 sk.s1 c.ctg1).orElse (fun _ => decrypt_G2 sk.s2 c.ctg2) = some v
    rw [h, Option.some_orElse']
  · intro h
    show (decrypt_G1 sk.s1 c.ctg1).orElse (fun _ => decrypt_G2 sk.s2 c.ctg2)
      = decrypt_G2 sk.s2 c.ctg2
    rw [h, Option.none_orElse']
  · intro junk
    have h0 : decrypt_G1 sk.s1 (encrypt_G1 sk.s1 0 r) = some 0 := by
      have := decrypt_G1_encrypt sk.s1 r 0 (by decide)
      rwa [Nat.cast_zero] at this
    constructor
    · show (decrypt_G1 sk.s1 (encrypt_G1 sk.s1 0 r)).orElse (fun _ => decrypt_G2 sk.s2 junk)
        = some 0
      rw [h0, Option.some_orElse']
    · show (decrypt_G1 sk.s1 (encrypt_G1 sk.s1 0 r)).orElse (fun _ => decrypt_G2 sk.s2 junk)
        ≠ none
      rw [h0, Option.some_orElse']
      simp

/-- Witness for C7: a `CT_1` whose G1 half decrypts to `none` (its
plaintext exponent is the unreachable `2^20`) falls back to the G2
half, and an honest zero encryption is returned as `some 0` directly. -/
theorem claim_C7_witness :
    decrypt ⟨5, 7⟩ (.ct1 ⟨⟨0, ((DLOG_BOUND : ℕ) : ZMod q)⟩, ⟨3, 4⟩⟩)
        = decrypt_G2 7 ⟨3, 4⟩
      ∧ decrypt ⟨5, 7⟩ (.ct1 ⟨encrypt_G1 5 0 9, ⟨3, 4⟩⟩) = some 0 := by
  have h := claim_C7_ct1_dispatch ⟨5, 7⟩ ⟨⟨0, ((DLOG_BOUND : ℕ) : ZMod q)⟩, ⟨3, 4⟩⟩ 9
  constructor
  · apply h.2.1
    show dlog 1 (((DLOG_BOUND : ℕ) : ZMod q) - 0 * 5) false = none
    rw [show ((DLOG_BOUND : ℕ) : ZMod q) - 0 * 5 = ((DLOG_BOUND : ℕ) : ZMod q) from by ring]
    exact dlog_signed_none DLOG_BOUND le_rfl (by decide)
  · exact (h.2.2 ⟨3, 4⟩).1

/-- C8: For every level `l >= 1` and plaintext `m < p`, the recursive
construction round-trips: `decrypt(sk, encrypt_D(pk, l, m)) = m mod p`,
for every choice of the uniform masks `bs`. -/
theorem claim_C8_recursive_roundtrip (s1 s2 r1 r2 : ZMod q) (l m : ℕ)
    (bs : List (ZMod p)) (hl : 1 ≤ l) (hm : m < p) :
    decrypt_D ⟨s1, s2⟩ (encrypt_D ⟨s1, s2⟩ r1 r2 l m bs) = some ((m : ℕ) : ZMod p) :=
  decrypt_D_encrypt_D s1 s2 r1 r2 l m bs hm

/-- Witness for C8 at level 3 with concrete masks. -/
theorem claim_C8_witness :
    decrypt_D ⟨5, 7⟩ (encrypt_D ⟨5, 7⟩ 3 11 3 42 [9, 23]) = some ((42 : ℕ) : ZMod p) :=
  claim_C8_recursive_roundtrip 5 7 3 11 3 42 [9, 23] (by decide) (by decide)

/-- C9 counterexample: `CT1.__rmul__` with an operand that is neither
`int` nor `Fr` does not surface an error — it falls off the end of the
method body and silently returns `None`. -/
theorem claim_C9_counterexample :
    CT1.rmul ⟨⟨0, 0⟩, ⟨0, 0⟩⟩ Operand.other = none := rfl

/-- C9 amended: for every operand that is neither `int` nor `Fr`,
`CT2.__mul__` raises `TypeError` and `CT1.__mul__` raises on a
non-ciphertext operand, but `CT1.__rmul__` silently returns `None`
instead of surfacing an error. -/
theorem claim_C9_scalar_type_errors (a : CT1) (c : CT2) (x : Operand)
    (hx : x.isScalar = false) :
    (∃ msg, c.mul x = .error msg)
      ∧ a.rmul x = none
      ∧ (∃ msg, a.mul Operand.other = .error msg) := by
  match x with
  | .int k => exact absurd hx (by simp [Operand.isScalar])
  | .fr v => exact absurd hx (by simp [Operand.isScalar])
  | .ct1 o => exact ⟨⟨_, rfl⟩, rfl, ⟨_, rfl⟩⟩
  | .other => exact ⟨⟨_, rfl⟩, rfl, ⟨_, rfl⟩⟩

/-- Witness for C9 (amended) at a concrete ciphertext and operand. -/
theorem claim_C9_witness :
    (∃ msg, CT2.mul ⟨⟨0, 0, 0, 0⟩⟩ Operand.other = .error msg)
      ∧ CT1.rmul ⟨⟨0, 1⟩, ⟨0, 1⟩⟩ Operand.other = none
      ∧ (∃ msg, CT1.mul ⟨⟨0, 1⟩, ⟨0, 1⟩⟩ Operand.other = .error msg) :=
  claim_C9_scalar_type_errors ⟨⟨0, 1⟩, ⟨0, 1⟩⟩ ⟨⟨0, 0, 0, 0⟩⟩ Operand.other rfl

/-- C10: The duplicate `dlog` prototype in `level_d.py` computes exactly
the same function as `lhe.dlog` restricted to the unsigned search: for
every base and power it returns the same exponent in `[0, 2^20)`, or
`None`, as `lhe.dlog(base, power, unsigned=True)`. -/
theorem claim_C10_dlog_equivalence (B P : ZMod q) :
    levelD_dlog B P = dlog B P true := by
  have h1 : levelD_dlog B P
      = findExp B P ((List.range DLOG_BOUND).map (fun j => ((0 + j : ℕ) : ℤ))) :=
    levelD_dlogAux_eq_findExp B P DLOG_BOUND 0
  have hl : (List.range DLOG_BOUND).map (fun j => ((0 + j : ℕ) : ℤ))
      = (List.range DLOG_BOUND).map (fun i : ℕ => (i : ℤ)) :=
    List.map_congr_left (fun a _ => by norm_num)
  have h2 : dlog B P true
      = findExp B P ((List.range DLOG_BOUND).map (fun i : ℕ => (i : ℤ))) := by
    rw [dlog, if_pos rfl, unsignedDomain]
  rw [h1, hl, h2]
